import Mathlib

/-!
Verification of the certified content tree and query-certification subsystem
of the nft_Marketplace repository (`src/nft-Marketplace-backend/src/http.rs`,
with the registry of `lib.rs`).

The embedding works at the byte level: a `Bytes` value is the list of byte
values (each < 256) of a Rust `String`/`Vec<u8>`.  Panics of the Rust code
(`unwrap`, slicing off a char boundary) are modelled by `Except Unit`, where
`.error ()` is a trap that produces no response.
-/

/-- Byte strings: lists of byte values. -/
abbrev Bytes := List Nat

/-- Decidable equality of trap-or-value results. -/
instance {ε α : Type} [DecidableEq ε] [DecidableEq α] : DecidableEq (Except ε α) := fun a b =>
  match a, b with
  | Except.ok x, Except.ok y =>
    if h : x = y then isTrue (by rw [h]) else isFalse (by intro hc; cases hc; exact h rfl)
  | Except.error x, Except.error y =>
    if h : x = y then isTrue (by rw [h]) else isFalse (by intro hc; cases hc; exact h rfl)
  | Except.ok _, Except.error _ => isFalse (by intro hc; cases hc)
  | Except.error _, Except.ok _ => isFalse (by intro hc; cases hc)

/-- The bytes of an ASCII string (every character of the literals used by the
source is ASCII, so UTF-8 encoding and code points coincide). -/
def asciiBytes (s : String) : Bytes := s.data.map Char.toNat

/-- Decimal digits of `n`, most significant first, as ASCII bytes; mirrors
Rust `format!` of an unsigned integer.  Structural fuel recursion (the fuel
`n+1` always suffices since `n/10 < n` for `n ≥ 10`). -/
def natToDecAux : Nat → Nat → Bytes
  | 0, _ => []
  | fuel + 1, n => if n < 10 then [48 + n] else natToDecAux fuel (n / 10) ++ [48 + n % 10]

/-- ASCII decimal rendering of a natural number. -/
def natToDec (n : Nat) : Bytes := natToDecAux (n + 1) n

/-- 2^32, the modulus of 32-bit words (the canister targets wasm32). -/
def M32 : Nat := 4294967296

/-- Right rotation of a 32-bit word. -/
def rotr32 (n x : Nat) : Nat := ((x >>> n) ||| (x <<< (32 - n))) % M32

/-- Right shift of a 32-bit word. -/
def shr32 (n x : Nat) : Nat := x >>> n

/-- SHA-256 round constants. -/
def shaK : List Nat :=
  [1116352408, 1899447441, 3049323471, 3921009573, 961987163, 1508970993,
   2453635748, 2870763221, 3624381080, 310598401, 607225278, 1426881987,
   1925078388, 2162078206, 2614888103, 3248222580, 3835390401, 4022224774,
   264347078, 604807628, 770255983, 1249150122, 1555081692, 1996064986,
   2554220882, 2821834349, 2952996808, 3210313671, 3336571891, 3584528711,
   113926993, 338241895, 666307205, 773529912, 1294757372, 1396182291,
   1695183700, 1986661051, 2177026350, 2456956037, 2730485921, 2820302411,
   3259730800, 3345764771, 3516065817, 3600352804, 4094571909, 275423344,
   430227734, 506948616, 659060556, 883997877, 958139571, 1322822218,
   1537002063, 1747873779, 1955562222, 2024104815, 2227730452, 2361852424,
   2428436474, 2756734187, 3204031479, 3329325298]

/-- SHA-256 initial hash state. -/
def shaH0 : List Nat :=
  [1779033703, 3144134277, 1013904242, 2773480762, 1359893119, 2600822924,
   528734635, 1541459225]

/-- SHA-256 padding: append 0x80, zeros to 56 mod 64, then the bit length as
eight big-endian bytes. -/
def shaPad (msg : Bytes) : Bytes :=
  let l := msg.length
  let z := (120 - (l + 1) % 64) % 64
  let bits := l * 8
  msg ++ [0x80] ++ List.replicate z 0 ++
    [bits >>> 56 % 256, bits >>> 48 % 256, bits >>> 40 % 256, bits >>> 32 % 256,
     bits >>> 24 % 256, bits >>> 16 % 256, bits >>> 8 % 256, bits % 256]

/-- Split a padded message into 64-byte blocks (fuel on the list length). -/
def shaBlocks : Nat → Bytes → List Bytes
  | 0, _ => []
  | _, [] => []
  | fuel + 1, l => l.take 64 :: shaBlocks fuel (l.drop 64)

/-- Four big-endian bytes to a 32-bit word, walking the byte list. -/
def wordsOfBytes : Bytes → List Nat
  | a :: b :: c :: d :: rest => (((a * 256 + b) * 256 + c) * 256 + d) :: wordsOfBytes rest
  | _ => []

/-- The SHA-256 message schedule: extend 16 words to 64. -/
def shaExtend : Nat → List Nat → List Nat
  | 0, w => w
  | fuel + 1, w =>
    let i := w.length
    let w15 := w.getD (i - 15) 0
    let w2 := w.getD (i - 2) 0
    let s0 := (rotr32 7 w15 ^^^ rotr32 18 w15 ^^^ shr32 3 w15) % M32
    let s1 := (rotr32 17 w2 ^^^ rotr32 19 w2 ^^^ shr32 10 w2) % M32
    shaExtend fuel (w ++ [(w.getD (i - 16) 0 + s0 + w.getD (i - 7) 0 + s1) % M32])

/-- One SHA-256 compression round. -/
def shaRound (kw : Nat × Nat) : List Nat → List Nat
  | [a, b, c, d, e, f, g, h] =>
    let s1 := rotr32 6 e ^^^ rotr32 11 e ^^^ rotr32 25 e
    let ch := (e &&& f) ^^^ ((M32 - 1 - e) &&& g)
    let t1 := (h + s1 + ch + kw.1 + kw.2) % M32
    let s0 := rotr32 2 a ^^^ rotr32 13 a ^^^ rotr32 22 a
    let mj := (a &&& b) ^^^ (a &&& c) ^^^ (b &&& c)
    let t2 := (s0 + mj) % M32
    [(t1 + t2) % M32, a, b, c, (d + t1) % M32, e, f, g]
  | s => s

/-- Compress one 64-byte block into the running hash state. -/
def shaCompress (hst : List Nat) (block : Bytes) : List Nat :=
  let w := shaExtend 48 (wordsOfBytes block)
  let out := (shaK.zip w).foldl (fun st kw => shaRound kw st) hst
  (hst.zip out).map (fun p => (p.1 + p.2) % M32)

/-- A 32-bit word as four big-endian bytes. -/
def bytesOfWord (x : Nat) : Bytes :=
  [x >>> 24 % 256, x >>> 16 % 256, x >>> 8 % 256, x % 256]

/-- SHA-256 of a byte string (the `sha2` crate's `Sha256::digest`). -/
def sha256 (msg : Bytes) : Bytes :=
  let padded := shaPad msg
  let final := (shaBlocks (padded.length + 1) padded).foldl shaCompress shaH0
  final.map bytesOfWord |>.flatten

/-- The hash literal the source binds to "/" in the initial tree
(http.rs line 35), whose comment asserts it is sha256 of "Total NFTs: 0". -/
def initRootHash : Bytes :=
  [0x83, 0xd0, 0xf6, 0x70, 0x86, 0x5c, 0x36, 0x7c, 0xe9, 0x5f, 0x59, 0x59,
   0x59, 0xab, 0xec, 0x46, 0xed, 0x7b, 0x64, 0x03, 0x3e, 0xce, 0xe9, 0xed,
   0x77, 0x2e, 0x78, 0x79, 0x3f, 0x3b, 0xc1, 0x0f]

theorem sha256_total_nfts_0 : sha256 (asciiBytes "Total NFTs: 0") = initRootHash := by decide

/-! ## Data model

`http.rs` imports `MetadataPurpose`, `MetadataVal`, `NFT` and a `STATE` whose
`nfts` field maps item ids to NFTs from `crate::`, but `lib.rs` (the only
other source file) defines none of them — the spec (§9) records this
inconsistency and follows the richer model, which we therefore model from the
spec. -/

/-- Modelled from the spec: the closed set of metadata-part classification
tags; "Rendered" marks the preferred default part (spec §3).  The remaining
tag is the non-default classification ("Preview"). -/
inductive MetadataPurpose
  | Preview
  | Rendered
deriving DecidableEq, BEq, Repr

/-- Modelled from the spec: a typed annotation value of a metadata part's
open key/value set; at minimum a content-type string is carried as text
(spec §3, §9).  Text is carried as its UTF-8 bytes. -/
inductive MetadataVal
  | TextContent (text : Bytes)
  | BlobContent (blob : Bytes)
  | NatContent (n : Nat)
deriving DecidableEq, Repr

/-- Modelled from the spec: one metadata part — a byte payload, a
classification tag and an open key/value annotation set (spec §3). -/
structure MetadataPart where
  purpose : MetadataPurpose
  key_val_data : List (String × MetadataVal)
  data : Bytes
deriving DecidableEq, Repr

/-- Modelled from the spec: an item with its ordered sequence of metadata
parts (spec §3). -/
structure NFT where
  metadata : List MetadataPart
deriving DecidableEq, Repr

/-- The content hash tree `HASHES : RbTree<String, Hash>` under its map
contract: an association list from UTF-8 key bytes to 32-byte hashes,
with insert-overwrite. -/
abbrev HTree := List (Bytes × Bytes)

/-- `RbTree` insertion: overwrite the entry at the key, or append it. -/
def insertT : HTree → Bytes → Bytes → HTree
  | [], k, v => [(k, v)]
  | (k', v') :: t, k, v =>
    if k' = k then (k, v) :: t else (k', v') :: insertT t k v

/-- The value an `RbTree` binds to a key. -/
def lookupT : HTree → Bytes → Option Bytes
  | [], _ => none
  | (k', v') :: t, k => if k' = k then some v' else lookupT t k

/-- Modelled from the spec: the state consumed by the certification
subsystem — the registry's items addressable by non-negative integer id
(spec §3, §4.2: item creation appends a fresh item, parts are append-only),
together with the content hash tree and the last-published root commitment.
The commitment `labeled_hash(b"http_assets", root_hash)` is a deterministic
function of the tree's entry set (spec §4.1), so the published commitment is
modelled as the snapshot of the tree it committed to. -/
structure Sys where
  nfts : List NFT
  hashes : HTree
  certified : Option HTree
deriving DecidableEq, Repr

/-! ## URL handling (http.rs lines 45-53) -/

/-- `url.split('?').next()`: the bytes before the first '?' (63). -/
def stripQuery (url : Bytes) : Bytes := url.takeWhile (fun b => b != 63)

/-- Whether Rust `&url[1..]` succeeds: index 1 must be in range and a UTF-8
char boundary (not a continuation byte 0x80..0xBF). -/
def sliceFrom1Ok : Bytes → Bool
  | [] => false
  | [_] => true
  | _ :: b :: _ => !(128 ≤ b && b < 192)

/-- Rust `str::split('/')` on the byte level (47 is '/'); always returns at
least one (possibly empty) segment. -/
def splitSlash : Bytes → List Bytes
  | [] => [[]]
  | b :: rest =>
    if b = 47 then [] :: splitSlash rest
    else
      match splitSlash rest with
      | s :: ss => (b :: s) :: ss
      | [] => [[b]]

/-- The value of a hex digit byte, if it is one. -/
def hexVal (b : Nat) : Option Nat :=
  if 48 ≤ b ∧ b ≤ 57 then some (b - 48)
  else if 65 ≤ b ∧ b ≤ 70 then some (b - 55)
  else if 97 ≤ b ∧ b ≤ 102 then some (b - 87)
  else none

/-- `percent_decode_str`: each `%XY` with two hex digits becomes the byte
`0xXY`; a '%' (37) not followed by two hex digits passes through unchanged. -/
def percentDecodeAux : Nat → Bytes → Bytes
  | 0, _ => []
  | fuel + 1, l =>
    match l with
    | [] => []
    | 37 :: a :: c :: rest =>
      (match hexVal a, hexVal c with
       | some x, some y => (16 * x + y) :: percentDecodeAux fuel rest
       | _, _ => 37 :: percentDecodeAux fuel (a :: c :: rest))
    | b :: rest => b :: percentDecodeAux fuel rest

/-- `percent_decode_str` over a whole segment (the fuel, one unit per
consumed byte, always suffices). -/
def percentDecode (l : Bytes) : Bytes := percentDecodeAux l.length l

/-- UTF-8 validity as a byte-at-a-time automaton: `need` is the count of
continuation bytes still expected and `(lo, hi)` the admissible half-open
range for the next byte (the E0/ED/F0/F4 second-byte restrictions of
`str::from_utf8`; after the first continuation byte the range is the plain
continuation range 0x80..0xC0). -/
def utf8ValidSt : Nat → Nat × Nat → Bytes → Bool
  | 0, _, [] => true
  | _ + 1, _, [] => false
  | 0, _, b :: rest =>
    if b < 128 then utf8ValidSt 0 (128, 192) rest
    else if b < 194 then false
    else if b < 224 then utf8ValidSt 1 (128, 192) rest
    else if b = 224 then utf8ValidSt 2 (160, 192) rest
    else if b = 237 then utf8ValidSt 2 (128, 160) rest
    else if b < 240 then utf8ValidSt 2 (128, 192) rest
    else if b = 240 then utf8ValidSt 3 (144, 192) rest
    else if b < 244 then utf8ValidSt 3 (128, 192) rest
    else if b = 244 then utf8ValidSt 3 (128, 144) rest
    else false
  | need + 1, (lo, hi), b :: rest =>
    if lo ≤ b ∧ b < hi then utf8ValidSt need (128, 192) rest else false

/-- UTF-8 validity of a byte string, as `str::from_utf8` checks it. -/
def utf8Valid (l : Bytes) : Bool := utf8ValidSt 0 (128, 192) l

/-- `percent_decode_str(segment).decode_utf8()`: percent-decode, then demand
valid UTF-8; the source `.unwrap()`s the result, so failure is a trap. -/
def decodeSeg (seg : Bytes) : Except Unit Bytes :=
  let d := percentDecode seg
  if utf8Valid d then Except.ok d else Except.error ()

/-- Rust `usize::from_str` on wasm32 (the canister target, where usize is
32 bits): an optional leading '+', then one or more ASCII digits, value at
most 2^32 - 1. -/
def parseUsize (s : Bytes) : Option Nat :=
  let digits := if s.head? = some 43 then s.tail else s
  if digits = [] then none
  else if digits.all (fun b => 48 ≤ b && b ≤ 57) then
    let v := digits.foldl (fun a b => 10 * a + (b - 48)) 0
    if v < M32 then some v else none
  else none

/-! ## The read entry point `http_request` (http.rs lines 38-129) -/

/-- An HTTP response `{status_code, headers, body}`; header values are byte
strings (`Cow<str>` UTF-8 bytes). -/
structure HttpResponse where
  statusCode : Nat
  headers : List (String × Bytes)
  body : Bytes
deriving DecidableEq, Repr

/-- `HashMap::insert` on the header map (assoc list, overwrite or append). -/
def insertHdr : List (String × Bytes) → String → Bytes → List (String × Bytes)
  | [], k, v => [(k, v)]
  | (k', v') :: t, k, v =>
    if k' = k then (k, v) :: t else (k', v') :: insertHdr t k v

/-- Header-map lookup. -/
def lookupHdr : List (String × Bytes) → String → Option Bytes
  | [], _ => none
  | (k', v') :: t, k => if k' = k then some v' else lookupHdr t k

/-- The base64 alphabet. -/
def b64Char (n : Nat) : Nat :=
  if n < 26 then 65 + n
  else if n < 52 then 97 + (n - 26)
  else if n < 62 then 48 + (n - 52)
  else if n = 62 then 43 else 47

/-- `base64::encode` with padding. -/
def base64 : Bytes → Bytes
  | a :: b :: c :: rest =>
    let w := (a * 256 + b) * 256 + c
    b64Char (w >>> 18) :: b64Char (w >>> 12 % 64) :: b64Char (w >>> 6 % 64) ::
      b64Char (w % 64) :: base64 rest
  | [a, b] =>
    let w := (a * 256 + b) * 16
    [b64Char (w >>> 12), b64Char (w >>> 6 % 64), b64Char (w % 64), 61]
  | [a] =>
    let w := a * 16
    [b64Char (w >>> 6), b64Char (w % 64), 61, 61]
  | [] => []

/-- The security policy header value of http.rs line 57 (note the blank on
each side of every ';'). -/
def cspValue : Bytes :=
  asciiBytes "default-src 'self' ; script-src 'none' ; frame-src 'none' ; object-src 'none'"

/-- The value of the `IC-Certificate` header (http.rs lines 46-51):
`certificate=:<base64 certificate>:, tree=:<witness>:`, where `<witness>` is
the already-base64 output of the witness serializer. -/
def certHeaderValue (cert : Bytes) (tw : Bytes) : Bytes :=
  asciiBytes "certificate=:" ++ base64 cert ++ asciiBytes ":, tree=:" ++ tw ++ asciiBytes ":"

/-- The build is not the production (`mainnet`) configuration, so the
`cfg!(mainnet)` strict-transport-security insert (lines 62-67) is skipped. -/
def mainnetCfg : Bool := false

/-- The body of the collection summary, `format!("Total NFTs: {}", n)`. -/
def countBody (n : Nat) : Bytes := asciiBytes "Total NFTs: " ++ natToDec n

/-- The content-type annotation surfaced from a part (lines 88-92, 100-104):
the `contentType` entry of its key/value data, when it is text. -/
def contentTypeOf (part : MetadataPart) : Option Bytes :=
  match part.key_val_data.lookup "contentType" with
  | some (MetadataVal.TextContent mime) => some mime
  | _ => none

/-- The resolver core (http.rs lines 68-122) over the two raw path segments
(`path.next()` calls; a missing segment is the empty string).  Produces
status code, body, and the optional content-type header value; `.error ()`
models a `decode_utf8().unwrap()` panic.  The second segment is decoded only
in the branch that reads it, as the lazy `map` of line 52-53 does. -/
def resolveRI (sys : Sys) (rootRaw imgRaw : Bytes) : Except Unit (Nat × Bytes × Option Bytes) := do
  let root ← decodeSeg rootRaw
  if root = [] then
    pure (200, countBody sys.nfts.length, none)
  else
    match parseUsize root with
    | some num =>
      match sys.nfts.get? num with
      | some nft => do
        let img ← decodeSeg imgRaw
        if img = [] then
          match (nft.metadata.find? fun x => x.purpose == MetadataPurpose.Rendered).orElse
              (fun _ => nft.metadata.get? 0) with
          | some part => pure (200, part.data, contentTypeOf part)
          | none => pure (200, asciiBytes "No metadata for this NFT", none)
        else
          match parseUsize img with
          | some i =>
            match nft.metadata.get? i with
            | some part => pure (200, part.data, contentTypeOf part)
            | none => pure (404, asciiBytes "No such metadata part", none)
          | none => pure (400, asciiBytes "Invalid metadata ID " ++ img, none)
      | none => pure (404, asciiBytes "No such NFT", none)
    | none => pure (400, asciiBytes "Invalid NFT ID " ++ root, none)

/-- Assemble the final response: the `from_iter` base headers (CSP and
IC-Certificate), the conditional STS header, the branch's Content-Type
insert, status and body. -/
def mkResponse (certV : Bytes) (code : Nat) (body : Bytes) (ct : Option Bytes) : HttpResponse :=
  let base := insertHdr (insertHdr [] "Content-Security-Policy" cspValue) "IC-Certificate" certV
  let base := if mainnetCfg then
      insertHdr base "Strict-Transport-Security" (asciiBytes "max-age=31536000; includeSubDomains")
    else base
  let hdrs := match ct with
    | some mime => insertHdr base "Content-Type" mime
    | none => base
  { statusCode := code, headers := hdrs, body := body }

/-- `http_request` (lines 38-129).  `w` is the witness serializer of lines
157-168 (CBOR + base64 over the tree's witness for the path — opaque to every
claim, so passed as a function of the path); `cert` is
`api::data_certificate()`.  Evaluation order follows the source: the
certificate is unwrapped (trap when `none`) before the `url[1..]` slice,
which traps unless index 1 is in range and a char boundary; segment decoding
traps on invalid UTF-8. -/
def httpRequest (sys : Sys) (w : Bytes → Bytes) (cert : Option Bytes) (url : Bytes) :
    Except Unit HttpResponse :=
  let path := stripQuery url
  match cert with
  | none => Except.error ()
  | some c =>
    let certV := certHeaderValue c (w path)
    if sliceFrom1Ok path then
      let segs := splitSlash (path.drop 1)
      match resolveRI sys (segs.headD []) ((segs.get? 1).getD []) with
      | Except.ok (code, body, ct) => Except.ok (mkResponse certV code body ct)
      | Except.error e => Except.error e
    else Except.error ()

/-! ## The mutation path `add_hash` (http.rs lines 131-155) -/

/-- The tree key `format!("/{}", tkid)`. -/
def keyItem (tkid : Nat) : Bytes := 47 :: natToDec tkid

/-- The tree key `format!("/{}/{}", tkid, i)`. -/
def keyPart (tkid i : Nat) : Bytes := 47 :: natToDec tkid ++ 47 :: natToDec i

/-- The root key "/". -/
def keyRoot : Bytes := [47]

/-- The `for (i, metadata) in nft.metadata.iter().enumerate()` loop of
lines 138-145: insert each part's hash at `/{tkid}/{i}` and, at the first
`Rendered` part (tracked by the `default` flag), also at `/{tkid}`. -/
def addHashLoop (tkid : Nat) : List MetadataPart → Nat → Bool → HTree → HTree
  | [], _, _, t => t
  | p :: ps, i, dflt, t =>
    let h := sha256 p.data
    let t := insertT t (keyPart tkid i) h
    if !dflt && p.purpose == MetadataPurpose.Rendered then
      addHashLoop tkid ps (i + 1) true (insertT t (keyItem tkid) h)
    else
      addHashLoop tkid ps (i + 1) dflt t

/-- `add_hash(tkid)` (lines 131-155): rewrite the touched item's entries and
the "/" entry, then publish the root commitment via `set_certified_data`.
`state.nfts.get(&tkid).unwrap()` traps when the item does not exist, which is
modelled by `none`. -/
def addHash (sys : Sys) (tkid : Nat) : Option Sys :=
  match sys.nfts.get? tkid with
  | none => none
  | some nft =>
    let t := addHashLoop tkid nft.metadata 0 false sys.hashes
    let t := insertT t keyRoot (sha256 (countBody sys.nfts.length))
    some { sys with hashes := t, certified := some t }

/-! ## Content mutations (spec §6) -/

/-- Modelled from the spec: the content-affecting mutation entry points —
item creation with metadata parts, and append-metadata-part (spec §6); each
must run the §4.3 steps, i.e. call `add_hash` for the touched item. -/
inductive Mutation
  | create (parts : List MetadataPart)
  | append (tkid : Nat) (part : MetadataPart)

/-- Modelled from the spec: apply one mutation — change the registry, then
process the change through `add_hash` (spec §4.3, §6).  Creation appends a
fresh item; append adds one immutable part at the end of an existing item's
sequence (spec §3: parts are append-only). -/
def applyMutation (sys : Sys) : Mutation → Option Sys
  | Mutation.create parts =>
    addHash { sys with nfts := sys.nfts ++ [⟨parts⟩] } sys.nfts.length
  | Mutation.append tkid part =>
    match sys.nfts.get? tkid with
    | none => none
    | some nft =>
      addHash { sys with nfts := sys.nfts.set tkid ⟨nft.metadata ++ [part]⟩ } tkid

/-- The process-start state: no items, and the `HASHES` tree of line 35
holding the hardcoded hash of "Total NFTs: 0" at "/"; nothing published. -/
def initSys : Sys := { nfts := [], hashes := [(keyRoot, initRootHash)], certified := none }

/-- A whole history: fold mutations from the initial state, trapping when a
step traps. -/
def runMutations (ms : List Mutation) : Option Sys :=
  ms.foldlM applyMutation initSys

/-! ## The flat registry of lib.rs and its `mint` (lib.rs lines 59-92, 244-255)

`lib.rs` holds the marketplace registry.  Its `mint` is the item-creation
mutation entry point named by the spec; its body is translated here as it
stands: it touches only the registry state. -/

/-- An opaque caller/owner identity (`candid::Principal`). -/
structure Principal where
  id : Nat
deriving DecidableEq, Repr

/-- The error type of lib.rs lines 21-37. -/
inductive MarketError
  | Unauthorized
  | InvalidTokenId
  | ZeroAddress
  | OwnerNotFound
  | OperatorNotFound
  | TokenAlreadyExists
  | TransferFailed
  | ApprovalFailed
  | MetadataNotFound
  | NotListedForSale
  | AlreadyListedForSale
  | CannotBuyOwnNFT
  | InsufficientFunds
  | Other (msg : String)
deriving DecidableEq, Repr

/-- The flat NFT metadata of lib.rs lines 43-49. -/
structure FlatMetadata where
  name : String
  description : String
  media_url : String
deriving DecidableEq, Repr

/-- A sale listing (lib.rs lines 52-56). -/
structure Listing where
  seller : Principal
  price : Nat
deriving DecidableEq, Repr

/-- The canister state of lib.rs lines 59-71 (hash maps as assoc lists;
`Nat` for candid `Nat` token ids). -/
structure LibState where
  name : String
  symbol : String
  owner : Option Principal
  total_supply : Nat
  tokens : List (Nat × Principal)
  token_approvals : List (Nat × Principal)
  operator_approvals : List (Principal × List Principal)
  token_metadata : List (Nat × FlatMetadata)
  next_token_id : Nat
  listings : List (Nat × Listing)
deriving Repr

/-- Assoc-list insert-overwrite, the `HashMap::insert` of lib.rs. -/
def insertA {α : Type} : List (Nat × α) → Nat → α → List (Nat × α)
  | [], k, v => [(k, v)]
  | (k', v') :: t, k, v =>
    if k' = k then (k, v) :: t else (k', v') :: insertA t k v

/-- `mint` (lib.rs lines 244-255), exactly as written: insert the token and
its metadata, bump the supply and the next id, and return `Ok(token_id)`.
Its body contains no other calls. -/
def mint (s : LibState) (owner : Principal) (m : FlatMetadata) :
    Except MarketError Nat × LibState :=
  let token_id := s.next_token_id
  (Except.ok token_id,
    { s with
      tokens := insertA s.tokens token_id owner
      token_metadata := insertA s.token_metadata token_id m
      total_supply := s.total_supply + 1
      next_token_id := s.next_token_id + 1 })

/-- The whole process: the lib.rs registry next to the certification
subsystem's `HASHES` tree and published commitment, so that a registry call's
(non-)effect on the certified state is expressible. -/
structure MarketSys where
  state : LibState
  hashes : HTree
  certified : Option HTree

/-- `mint` as a step of the whole process: it runs on the registry state and,
as lines 244-255 call neither `add_hash` nor `set_certified_data`, leaves the
tree and the published commitment as they were. -/
def mintSys (sys : MarketSys) (owner : Principal) (m : FlatMetadata) :
    Except MarketError Nat × MarketSys :=
  let (r, s') := mint sys.state owner m
  (r, { sys with state := s' })

/-! ## Lemmas: decimal rendering -/

/-- The numeric value of a digit string, as `parseUsize` folds it. -/
def valAux (acc : Nat) (l : Bytes) : Nat := l.foldl (fun a b => 10 * a + (b - 48)) acc

theorem natToDecAux_digits : ∀ fuel n b, b ∈ natToDecAux fuel n → 48 ≤ b ∧ b ≤ 57 := by
  intro fuel
  induction fuel with
  | zero => intro n b hb; simp [natToDecAux] at hb
  | succ fuel ih =>
    intro n b hb
    unfold natToDecAux at hb
    by_cases h : n < 10
    · simp [h] at hb
      omega
    · simp [h, List.mem_append] at hb
      rcases hb with hb | hb
      · exact ih _ _ hb
      · have : n % 10 < 10 := Nat.mod_lt _ (by norm_num)
        omega

theorem natToDec_digits (n b : Nat) (hb : b ∈ natToDec n) : 48 ≤ b ∧ b ≤ 57 :=
  natToDecAux_digits _ _ _ hb

theorem natToDecAux_ne_nil (fuel n : Nat) : natToDecAux (fuel + 1) n ≠ [] := by
  unfold natToDecAux
  by_cases h : n < 10 <;> simp [h]

theorem natToDec_ne_nil (n : Nat) : natToDec n ≠ [] := natToDecAux_ne_nil _ _

theorem valAux_append_digit (l : Bytes) (b : Nat) :
    valAux 0 (l ++ [b]) = 10 * valAux 0 l + (b - 48) := by
  simp [valAux, List.foldl_append]

theorem natToDecAux_val : ∀ fuel n, n < 10 ^ fuel → valAux 0 (natToDecAux fuel n) = n := by
  intro fuel
  induction fuel with
  | zero =>
    intro n hn
    simp at hn
    simp [natToDecAux, valAux, hn]
  | succ fuel ih =>
    intro n hn
    unfold natToDecAux
    by_cases h : n < 10
    · simp [h, valAux]
    · have hdiv : n / 10 < 10 ^ fuel := by
        rw [Nat.div_lt_iff_lt_mul (by norm_num : 0 < 10)]
        calc n < 10 ^ (fuel + 1) := hn
        _ = 10 ^ fuel * 10 := by ring
      simp only [h, if_false]
      rw [valAux_append_digit, ih _ hdiv]
      omega

theorem natToDec_val (n : Nat) : valAux 0 (natToDec n) = n := by
  have h1 : n < 10 ^ n := Nat.lt_pow_self (by norm_num) n
  have h2 : (10 : Nat) ^ n ≤ 10 ^ (n + 1) := Nat.pow_le_pow_right (by norm_num) (Nat.le_succ n)
  exact natToDecAux_val (n + 1) n (lt_of_lt_of_le h1 h2)

theorem natToDec_inj {a b : Nat} (h : natToDec a = natToDec b) : a = b := by
  have := natToDec_val a
  rw [h, natToDec_val b] at this
  omega

theorem natToDec_no_slash (n : Nat) : ∀ b ∈ natToDec n, b ≠ 47 := by
  intro b hb
  have := natToDec_digits n b hb
  omega

/-- Rust `usize::from_str` recovers what `format!` printed (for values that
fit the 32-bit usize). -/
theorem parseUsize_of_digits (l : Bytes) (hne : l ≠ [])
    (hdig : ∀ b ∈ l, 48 ≤ b ∧ b ≤ 57) :
    parseUsize l = if valAux 0 l < M32 then some (valAux 0 l) else none := by
  have hhead : l.head? ≠ some 43 := by
    cases l with
    | nil => simp
    | cons b rest =>
      have hb := hdig b (List.mem_cons_self _ _)
      simp
      omega
  have hall : l.all (fun b => 48 ≤ b && b ≤ 57) = true := by
    rw [List.all_eq_true]
    intro b hb
    have := hdig b hb
    simp
    omega
  unfold parseUsize
  simp only [if_neg hhead, hne, if_false, hall, if_true]
  rfl

/-- Rust `usize::from_str` recovers what `format!` printed (for values that
fit the 32-bit usize). -/
theorem parseUsize_natToDec (n : Nat) (hn : n < M32) : parseUsize (natToDec n) = some n := by
  rw [parseUsize_of_digits _ (natToDec_ne_nil n) (fun b hb => natToDec_digits n b hb),
    natToDec_val n, if_pos hn]

/-! ## Lemmas: URL handling on plain ASCII input -/

/-- A plain path segment: ASCII with no '%', '/' or '?'; such a segment
passes percent-decoding and the UTF-8 check unchanged. -/
abbrev PlainSeg (l : Bytes) : Prop := ∀ b ∈ l, b < 128 ∧ b ≠ 37 ∧ b ≠ 47 ∧ b ≠ 63

theorem percentDecodeAux_no_percent :
    ∀ fuel l, l.length ≤ fuel → (∀ b ∈ l, b ≠ 37) → percentDecodeAux fuel l = l := by
  intro fuel
  induction fuel with
  | zero =>
    intro l hlen _
    rw [Nat.le_zero] at hlen
    rw [List.length_eq_zero] at hlen
    rw [hlen]
    rfl
  | succ fuel ih =>
    intro l hlen hnp
    cases l with
    | nil => rfl
    | cons b rest =>
      have hb : b ≠ 37 := hnp b (List.mem_cons_self _ _)
      have hrest : ∀ x ∈ rest, x ≠ 37 := fun x hx => hnp x (List.mem_cons_of_mem _ hx)
      have hlen' : rest.length ≤ fuel := by simp at hlen; omega
      unfold percentDecodeAux
      split
      next heq => exact (List.cons_ne_nil _ _ heq).elim
      next a c rest' heq =>
        injection heq with h1 _
        exact (hb h1).elim
      next b' rest' hne heq =>
        injection heq with h1 h2
        rw [← h1, ← h2, ih rest hlen' hrest]

theorem percentDecode_no_percent (l : Bytes) (hnp : ∀ b ∈ l, b ≠ 37) :
    percentDecode l = l :=
  percentDecodeAux_no_percent l.length l le_rfl hnp

theorem utf8Valid_ascii : ∀ l : Bytes, (∀ b ∈ l, b < 128) → utf8Valid l = true := by
  intro l
  induction l with
  | nil => intro; rfl
  | cons b rest ih =>
    intro h
    have hb := h b (List.mem_cons_self _ _)
    show utf8ValidSt 0 (128, 192) (b :: rest) = true
    rw [utf8ValidSt]
    simp only [if_pos hb]
    exact ih fun x hx => h x (List.mem_cons_of_mem _ hx)

theorem decodeSeg_plain (l : Bytes) (hp : PlainSeg l) : decodeSeg l = Except.ok l := by
  unfold decodeSeg
  simp only [percentDecode_no_percent l (fun b hb => (hp b hb).2.1),
    utf8Valid_ascii l (fun b hb => (hp b hb).1), if_true]

theorem splitSlash_no_slash : ∀ l : Bytes, (∀ b ∈ l, b ≠ 47) → splitSlash l = [l] := by
  intro l
  induction l with
  | nil => intro; rfl
  | cons b rest ih =>
    intro h
    have hb := h b (List.mem_cons_self _ _)
    unfold splitSlash
    rw [if_neg hb, ih fun x hx => h x (List.mem_cons_of_mem _ hx)]

theorem splitSlash_append : ∀ a r : Bytes, (∀ b ∈ a, b ≠ 47) →
    splitSlash (a ++ 47 :: r) = a :: splitSlash r := by
  intro a
  induction a with
  | nil =>
    intro r _
    rw [List.nil_append]
    conv_lhs => rw [splitSlash]
    rw [if_pos rfl]
  | cons b rest ih =>
    intro r h
    have hb := h b (List.mem_cons_self _ _)
    have ih' := ih r fun x hx => h x (List.mem_cons_of_mem _ hx)
    show splitSlash (b :: (rest ++ 47 :: r)) = (b :: rest) :: splitSlash r
    conv_lhs => rw [splitSlash]
    rw [if_neg hb, ih']

theorem stripQuery_append (l r : Bytes) (h : ∀ b ∈ l, b ≠ 63) :
    stripQuery (l ++ r) = l ++ stripQuery r := by
  induction l with
  | nil => rfl
  | cons b rest ih =>
    have hb : (b != 63) = true := by
      have := h b (List.mem_cons_self _ _)
      simp only [bne_iff_ne, ne_eq]
      exact this
    show List.takeWhile (fun b => b != 63) (b :: (rest ++ r)) = b :: rest ++ stripQuery r
    rw [List.takeWhile_cons_of_pos (p := fun x => x != 63) hb]
    have ihh := ih fun x hx => h x (List.mem_cons_of_mem _ hx)
    unfold stripQuery at ihh
    rw [ihh]
    rfl

theorem stripQuery_no_q (l : Bytes) (h : ∀ b ∈ l, b ≠ 63) : stripQuery l = l := by
  have := stripQuery_append l [] h
  simpa [stripQuery] using this

/-! ## Lemmas: the tree as a map -/

theorem lookupT_insertT_self : ∀ (t : HTree) (k v : Bytes),
    lookupT (insertT t k v) k = some v := by
  intro t k v
  induction t with
  | nil => simp [insertT, lookupT]
  | cons kv t ih =>
    obtain ⟨k', v'⟩ := kv
    unfold insertT
    by_cases h : k' = k
    · rw [if_pos h]
      simp [lookupT]
    · rw [if_neg h]
      unfold lookupT
      rw [if_neg h]
      exact ih

theorem lookupT_insertT_ne : ∀ (t : HTree) (k v q : Bytes), q ≠ k →
    lookupT (insertT t k v) q = lookupT t q := by
  intro t k v q hq
  induction t with
  | nil =>
    unfold insertT lookupT
    rw [if_neg (fun h => hq h.symm)]
    rfl
  | cons kv t ih =>
    obtain ⟨k', v'⟩ := kv
    unfold insertT
    by_cases h : k' = k
    · rw [if_pos h]
      unfold lookupT
      rw [if_neg (fun hc => hq hc.symm), if_neg (by rw [h]; exact fun hc => hq hc.symm)]
    · rw [if_neg h]
      unfold lookupT
      by_cases h2 : k' = q
      · rw [if_pos h2, if_pos h2]
      · rw [if_neg h2, if_neg h2]
        exact ih

/-! ## Lemmas: the designed hierarchy's keys are pairwise distinct -/

theorem append_slash_free_inj {a b c d : Bytes}
    (ha : ∀ x ∈ a, x ≠ 47) (hb : ∀ x ∈ b, x ≠ 47)
    (h : a ++ 47 :: c = b ++ 47 :: d) : a = b ∧ c = d := by
  induction a generalizing b with
  | nil =>
    cases b with
    | nil => simpa using h
    | cons y b' =>
      exfalso
      rw [List.nil_append, List.cons_append] at h
      have : y = 47 := by
        have := congrArg (fun l => l.headD 0) h
        simpa using this.symm
      exact hb y (List.mem_cons_self _ _) this
  | cons x a' ih =>
    cases b with
    | nil =>
      exfalso
      rw [List.nil_append, List.cons_append] at h
      have : x = 47 := by
        have := congrArg (fun l => l.headD 0) h
        simpa using this
      exact ha x (List.mem_cons_self _ _) this
    | cons y b' =>
      rw [List.cons_append, List.cons_append] at h
      injection h with h1 h2
      obtain ⟨hab, hcd⟩ := ih (fun x hx => ha x (List.mem_cons_of_mem _ hx))
        (fun x hx => hb x (List.mem_cons_of_mem _ hx)) h2
      exact ⟨by rw [h1, hab], hcd⟩

theorem keyItem_inj {a b : Nat} (h : keyItem a = keyItem b) : a = b := by
  unfold keyItem at h
  injection h with _ h2
  exact natToDec_inj h2

theorem keyPart_inj {a i b j : Nat} (h : keyPart a i = keyPart b j) : a = b ∧ i = j := by
  unfold keyPart at h
  injection h with _ h2
  obtain ⟨h3, h4⟩ := append_slash_free_inj (natToDec_no_slash a) (natToDec_no_slash b) h2
  exact ⟨natToDec_inj h3, natToDec_inj h4⟩

theorem keyItem_ne_keyPart (a b j : Nat) : keyItem a ≠ keyPart b j := by
  unfold keyItem keyPart
  intro h
  injection h with _ h2
  have : (47 : Nat) ∈ natToDec a := by
    rw [h2]
    exact List.mem_append_right _ (List.mem_cons_self _ _)
  exact natToDec_no_slash a 47 this rfl

theorem keyRoot_ne_keyItem (a : Nat) : keyRoot ≠ keyItem a := by
  unfold keyRoot keyItem
  intro h
  injection h with _ h2
  exact natToDec_ne_nil a h2.symm

theorem keyRoot_ne_keyPart (a j : Nat) : keyRoot ≠ keyPart a j := by
  unfold keyRoot keyPart
  intro h
  injection h with _ h2
  exact natToDec_ne_nil a (List.append_eq_nil.mp h2.symm).1

/-! ## Lemmas: what `add_hash`'s loop writes -/

/-- The loop only writes the touched item's keys. -/
theorem addHashLoop_frame (tkid : Nat) : ∀ (ps : List MetadataPart) (i : Nat) (dflt : Bool)
    (t : HTree) (k : Bytes), (∀ j, k ≠ keyPart tkid (i + j)) → k ≠ keyItem tkid →
    lookupT (addHashLoop tkid ps i dflt t) k = lookupT t k := by
  intro ps
  induction ps with
  | nil => intro i dflt t k _ _; rfl
  | cons p ps ih =>
    intro i dflt t k hkp hki
    have hk0 : k ≠ keyPart tkid i := by
      have := hkp 0
      simpa using this
    have hkp' : ∀ j, k ≠ keyPart tkid (i + 1 + j) := by
      intro j
      have := hkp (j + 1)
      rw [show i + (j + 1) = i + 1 + j by omega] at this
      exact this
    unfold addHashLoop
    by_cases hr : (!dflt && p.purpose == MetadataPurpose.Rendered) = true
    · rw [if_pos hr, ih _ _ _ _ hkp' hki, lookupT_insertT_ne _ _ _ _ hki,
        lookupT_insertT_ne _ _ _ _ hk0]
    · rw [if_neg hr, ih _ _ _ _ hkp' hki, lookupT_insertT_ne _ _ _ _ hk0]

/-- After the loop, the entry of part `i + j` is the hash of the `j`-th part
of the processed list (entries beyond it keep their old value). -/
theorem addHashLoop_part (tkid : Nat) : ∀ (ps : List MetadataPart) (i : Nat) (dflt : Bool)
    (t : HTree) (j : Nat),
    lookupT (addHashLoop tkid ps i dflt t) (keyPart tkid (i + j)) =
      (match ps.get? j with
       | some p => some (sha256 p.data)
       | none => lookupT t (keyPart tkid (i + j))) := by
  intro ps
  induction ps with
  | nil => intro i dflt t j; rfl
  | cons p ps ih =>
    intro i dflt t j
    cases j with
    | zero =>
      have hne : ∀ j', keyPart tkid i ≠ keyPart tkid (i + 1 + j') := by
        intro j' h
        have := (keyPart_inj h).2
        omega
      have hki : keyPart tkid i ≠ keyItem tkid := fun h => keyItem_ne_keyPart tkid tkid i h.symm
      unfold addHashLoop
      simp only [Nat.add_zero, List.get?_cons_zero]
      by_cases hr : (!dflt && p.purpose == MetadataPurpose.Rendered) = true
      · rw [if_pos hr, addHashLoop_frame tkid ps _ _ _ _ hne hki,
          lookupT_insertT_ne _ _ _ _ hki, lookupT_insertT_self]
      · rw [if_neg hr, addHashLoop_frame tkid ps _ _ _ _ hne hki, lookupT_insertT_self]
    | succ j' =>
      have harith : i + (j' + 1) = (i + 1) + j' := by omega
      have hne0 : keyPart tkid (i + (j' + 1)) ≠ keyPart tkid i := by
        intro h
        have := (keyPart_inj h).2
        omega
      have hki : keyPart tkid (i + (j' + 1)) ≠ keyItem tkid :=
        fun h => keyItem_ne_keyPart tkid tkid _ h.symm
      unfold addHashLoop
      by_cases hr : (!dflt && p.purpose == MetadataPurpose.Rendered) = true
      · rw [if_pos hr, harith, ih]
        simp only [List.get?_cons_succ]
        rw [← harith, lookupT_insertT_ne _ _ _ _ hki, lookupT_insertT_ne _ _ _ _ hne0]
      · rw [if_neg hr, harith, ih]
        simp only [List.get?_cons_succ]
        rw [← harith, lookupT_insertT_ne _ _ _ _ hne0]

/-- With the `default` flag already set, the loop never writes the alias. -/
theorem addHashLoop_alias_true (tkid : Nat) : ∀ (ps : List MetadataPart) (i : Nat) (t : HTree),
    lookupT (addHashLoop tkid ps i true t) (keyItem tkid) = lookupT t (keyItem tkid) := by
  intro ps
  induction ps with
  | nil => intro i t; rfl
  | cons p ps ih =>
    intro i t
    unfold addHashLoop
    simp only [Bool.not_true, Bool.false_and, Bool.false_eq_true, if_false]
    rw [ih]
    exact lookupT_insertT_ne _ _ _ _ (fun h => keyItem_ne_keyPart tkid tkid i h)

/-- With the flag clear, the loop leaves the alias at the hash of the first
`Rendered` part, or untouched when there is none. -/
theorem addHashLoop_alias_false (tkid : Nat) : ∀ (ps : List MetadataPart) (i : Nat) (t : HTree),
    lookupT (addHashLoop tkid ps i false t) (keyItem tkid) =
      (match ps.find? (fun p => p.purpose == MetadataPurpose.Rendered) with
       | some p => some (sha256 p.data)
       | none => lookupT t (keyItem tkid)) := by
  intro ps
  induction ps with
  | nil => intro i t; rfl
  | cons p ps ih =>
    intro i t
    have hkp : keyItem tkid ≠ keyPart tkid i := keyItem_ne_keyPart tkid tkid i
    unfold addHashLoop
    by_cases hr : (p.purpose == MetadataPurpose.Rendered) = true
    · have hcond : (!false && (p.purpose == MetadataPurpose.Rendered)) = true := by
        simp [hr]
      rw [if_pos hcond, addHashLoop_alias_true, lookupT_insertT_self,
        List.find?_cons_of_pos (p := fun q : MetadataPart => q.purpose == MetadataPurpose.Rendered) _ hr]
    · have hcond : ¬((!false && (p.purpose == MetadataPurpose.Rendered)) = true) := by
        simp only [Bool.not_false, Bool.true_and]
        exact hr
      rw [if_neg hcond, ih,
        List.find?_cons_of_neg (p := fun q : MetadataPart => q.purpose == MetadataPurpose.Rendered) _ hr,
        lookupT_insertT_ne _ _ _ _ hkp]

/-! ## Lemmas: `add_hash` as a whole -/

theorem get?_concat_ne {α : Type} (l : List α) (x : α) (id : Nat) (h : id ≠ l.length) :
    (l ++ [x]).get? id = l.get? id := by
  by_cases hlt : id < l.length
  · exact List.get?_append hlt
  · have h1 : l.length ≤ id := by omega
    have h2 : (l ++ [x]).length ≤ id := by
      simp only [List.length_append, List.length_cons, List.length_nil]
      omega
    rw [List.get?_eq_none.mpr h2, List.get?_eq_none.mpr h1]

theorem get?_set_self {α : Type} (l : List α) (i : Nat) (a : α) (h : i < l.length) :
    (l.set i a).get? i = some a := by
  rw [List.get?_eq_getElem?]
  exact List.getElem?_set_self h

theorem get?_set_ne {α : Type} (l : List α) (i j : Nat) (a : α) (h : i ≠ j) :
    (l.set i a).get? j = l.get? j := by
  rw [List.get?_eq_getElem?, List.get?_eq_getElem?, List.getElem?_set_ne h]

/-- The value the tree binds to an item's alias: the hash of its first
`Rendered` part. -/
def renderedVal (onft : Option NFT) : Option Bytes :=
  onft.bind fun nft =>
    (nft.metadata.find? fun x => x.purpose == MetadataPurpose.Rendered).map
      fun p => sha256 p.data

/-- The value the tree binds to a part entry: the hash of the part's bytes. -/
def partVal (onft : Option NFT) (i : Nat) : Option Bytes :=
  onft.bind fun nft => (nft.metadata.get? i).map fun p => sha256 p.data

/-- Everything one `add_hash(tkid)` call does to the tree, entry by entry. -/
theorem addHash_lookup (sys : Sys) (tkid : Nat) (nft : NFT) (sys' : Sys)
    (hget : sys.nfts.get? tkid = some nft)
    (heq : addHash sys tkid = some sys') :
    sys'.nfts = sys.nfts ∧
    sys'.certified = some sys'.hashes ∧
    lookupT sys'.hashes keyRoot = some (sha256 (countBody sys.nfts.length)) ∧
    (lookupT sys'.hashes (keyItem tkid) =
      (match nft.metadata.find? (fun x => x.purpose == MetadataPurpose.Rendered) with
       | some p => some (sha256 p.data)
       | none => lookupT sys.hashes (keyItem tkid))) ∧
    (∀ i, lookupT sys'.hashes (keyPart tkid i) =
      (match nft.metadata.get? i with
       | some p => some (sha256 p.data)
       | none => lookupT sys.hashes (keyPart tkid i))) ∧
    (∀ id, id ≠ tkid → lookupT sys'.hashes (keyItem id) = lookupT sys.hashes (keyItem id)) ∧
    (∀ id i, id ≠ tkid → lookupT sys'.hashes (keyPart id i) = lookupT sys.hashes (keyPart id i)) := by
  unfold addHash at heq
  rw [hget] at heq
  have hs' : sys' = { sys with
      hashes := insertT (addHashLoop tkid nft.metadata 0 false sys.hashes) keyRoot
        (sha256 (countBody sys.nfts.length)),
      certified := some (insertT (addHashLoop tkid nft.metadata 0 false sys.hashes) keyRoot
        (sha256 (countBody sys.nfts.length))) } := by
    cases heq
    rfl
  subst hs'
  refine ⟨rfl, rfl, lookupT_insertT_self _ _ _, ?_, ?_, ?_, ?_⟩
  · rw [lookupT_insertT_ne _ _ _ _ (fun h => keyRoot_ne_keyItem tkid h.symm)]
    exact addHashLoop_alias_false tkid nft.metadata 0 sys.hashes
  · intro i
    rw [lookupT_insertT_ne _ _ _ _ (fun h => keyRoot_ne_keyPart tkid i h.symm)]
    have := addHashLoop_part tkid nft.metadata 0 false sys.hashes i
    rw [Nat.zero_add] at this
    exact this
  · intro id hid
    rw [lookupT_insertT_ne _ _ _ _ (fun h => keyRoot_ne_keyItem id h.symm)]
    exact addHashLoop_frame tkid nft.metadata 0 false sys.hashes (keyItem id)
      (fun j => keyItem_ne_keyPart id tkid (0 + j))
      (fun h => hid (keyItem_inj h))
  · intro id i hid
    rw [lookupT_insertT_ne _ _ _ _ (fun h => keyRoot_ne_keyPart id i h.symm)]
    exact addHashLoop_frame tkid nft.metadata 0 false sys.hashes (keyPart id i)
      (fun j h => hid (keyPart_inj h).1)
      (fun h => keyItem_ne_keyPart tkid id i h.symm)

/-! ## The content-tree invariant -/

/-- The correspondence `add_hash` maintains between the registry and the
tree: "/" holds the hash of the current count body; an item's alias entry
holds the hash of its first `Rendered` part (and is absent otherwise); a
part entry holds the hash of that part's bytes (and is absent otherwise). -/
def TreeInv (sys : Sys) : Prop :=
  lookupT sys.hashes keyRoot = some (sha256 (countBody sys.nfts.length)) ∧
  (∀ id, lookupT sys.hashes (keyItem id) = renderedVal (sys.nfts.get? id)) ∧
  (∀ id i, lookupT sys.hashes (keyPart id i) = partVal (sys.nfts.get? id) i)

theorem countBody_zero : countBody 0 = asciiBytes "Total NFTs: 0" := by decide

theorem inv_init : TreeInv initSys := by
  refine ⟨?_, ?_, ?_⟩
  · show lookupT [(keyRoot, initRootHash)] keyRoot = _
    rw [show lookupT [(keyRoot, initRootHash)] keyRoot = some initRootHash from rfl]
    rw [show (initSys.nfts : List NFT).length = 0 from rfl, countBody_zero,
      sha256_total_nfts_0]
  · intro id
    show lookupT [(keyRoot, initRootHash)] (keyItem id) = _
    unfold lookupT
    rw [if_neg (keyRoot_ne_keyItem id)]
    rfl
  · intro id i
    show lookupT [(keyRoot, initRootHash)] (keyPart id i) = _
    unfold lookupT
    rw [if_neg (keyRoot_ne_keyPart id i)]
    rfl

theorem inv_applyMutation (sys sys' : Sys) (m : Mutation)
    (heq : applyMutation sys m = some sys') (hinv : TreeInv sys) : TreeInv sys' := by
  obtain ⟨hroot, hitem, hpart⟩ := hinv
  cases m with
  | create parts =>
    simp only [applyMutation] at heq
    have hget : (sys.nfts ++ [(⟨parts⟩ : NFT)]).get? sys.nfts.length = some ⟨parts⟩ :=
      List.get?_concat_length _ _
    obtain ⟨hn, _, hr, hi, hp, hio, hpo⟩ :=
      addHash_lookup { sys with nfts := sys.nfts ++ [⟨parts⟩] } sys.nfts.length ⟨parts⟩ sys'
        hget heq
    have hnone : sys.nfts.get? sys.nfts.length = none := List.get?_eq_none.mpr le_rfl
    refine ⟨?_, ?_, ?_⟩
    · rw [hn]
      exact hr
    · intro id
      by_cases hid : id = sys.nfts.length
      · rw [hid, hn, hi, hitem sys.nfts.length, hnone]
        show (match List.find? (fun x => x.purpose == MetadataPurpose.Rendered) parts with
          | some p => some (sha256 p.data)
          | none => renderedVal none) = renderedVal ((sys.nfts ++ [(⟨parts⟩ : NFT)]).get? sys.nfts.length)
        rw [hget]
        cases hf : List.find? (fun x => x.purpose == MetadataPurpose.Rendered) parts with
        | some q => simp [renderedVal, hf]
        | none => simp [renderedVal, hf]
      · rw [hn, hio id hid, hitem id]
        show _ = renderedVal ((sys.nfts ++ [(⟨parts⟩ : NFT)]).get? id)
        rw [get?_concat_ne _ _ id hid]
    · intro id i
      by_cases hid : id = sys.nfts.length
      · rw [hid, hn, hp i, hpart sys.nfts.length i, hnone]
        show (match parts.get? i with
          | some p => some (sha256 p.data)
          | none => partVal none i) = partVal ((sys.nfts ++ [(⟨parts⟩ : NFT)]).get? sys.nfts.length) i
        rw [hget]
        cases hg : parts.get? i with
        | some q =>
          rw [List.get?_eq_getElem?] at hg
          simp [partVal, hg]
        | none =>
          rw [List.get?_eq_getElem?] at hg
          simp [partVal, hg]
      · rw [hn, hpo id i hid, hpart id i]
        show _ = partVal ((sys.nfts ++ [(⟨parts⟩ : NFT)]).get? id) i
        rw [get?_concat_ne _ _ id hid]
  | append tkid part =>
    simp only [applyMutation] at heq
    cases hg : sys.nfts.get? tkid with
    | none => rw [hg] at heq; cases heq
    | some nft =>
      rw [hg] at heq
      have htk : tkid < sys.nfts.length := by
        by_contra hcon
        rw [List.get?_eq_none.mpr (by omega)] at hg
        cases hg
      have hget : (sys.nfts.set tkid ⟨nft.metadata ++ [part]⟩).get? tkid =
          some ⟨nft.metadata ++ [part]⟩ := get?_set_self _ _ _ htk
      obtain ⟨hn, _, hr, hi, hp, hio, hpo⟩ :=
        addHash_lookup { sys with nfts := sys.nfts.set tkid ⟨nft.metadata ++ [part]⟩ } tkid
          ⟨nft.metadata ++ [part]⟩ sys' hget heq
      refine ⟨?_, ?_, ?_⟩
      · rw [hn, hr]
      · intro id
        by_cases hid : id = tkid
        · rw [hid, hn, hi]
          show (match List.find? (fun x => x.purpose == MetadataPurpose.Rendered)
              (nft.metadata ++ [part]) with
            | some p => some (sha256 p.data)
            | none => lookupT sys.hashes (keyItem tkid)) =
            renderedVal ((sys.nfts.set tkid (⟨nft.metadata ++ [part]⟩ : NFT)).get? tkid)
          rw [hget]
          cases hfull : List.find? (fun x => x.purpose == MetadataPurpose.Rendered)
              (nft.metadata ++ [part]) with
          | some q => simp [renderedVal, hfull]
          | none =>
            rw [hitem tkid, hg]
            rw [List.find?_append] at hfull
            cases hf : List.find? (fun x => x.purpose == MetadataPurpose.Rendered)
                nft.metadata with
            | some q =>
              rw [hf] at hfull
              simp [Option.or] at hfull
            | none =>
              rw [hf] at hfull
              simp only [Option.none_or] at hfull
              simp [renderedVal, List.find?_append, hf, hfull]
        · rw [hn, hio id hid, hitem id]
          show _ = renderedVal ((sys.nfts.set tkid (⟨nft.metadata ++ [part]⟩ : NFT)).get? id)
          rw [get?_set_ne _ _ _ _ (fun h => hid h.symm)]
      · intro id i
        by_cases hid : id = tkid
        · rw [hid, hn, hp i]
          show (match (nft.metadata ++ [part]).get? i with
            | some p => some (sha256 p.data)
            | none => lookupT sys.hashes (keyPart tkid i)) =
            partVal ((sys.nfts.set tkid (⟨nft.metadata ++ [part]⟩ : NFT)).get? tkid) i
          rw [hget]
          cases hgi : (nft.metadata ++ [part]).get? i with
          | some q =>
            rw [List.get?_eq_getElem?] at hgi
            simp [partVal, hgi]
          | none =>
            rw [hpart tkid i, hg]
            have hmd : nft.metadata.get? i = none := by
              rw [List.get?_eq_none] at hgi ⊢
              simp only [List.length_append, List.length_cons, List.length_nil] at hgi
              omega
            rw [List.get?_eq_getElem?] at hgi hmd
            simp [partVal, hgi, hmd]
        · rw [hn, hpo id i hid, hpart id i]
          show _ = partVal ((sys.nfts.set tkid (⟨nft.metadata ++ [part]⟩ : NFT)).get? id) i
          rw [get?_set_ne _ _ _ _ (fun h => hid h.symm)]

theorem inv_foldlM : ∀ (ms : List Mutation) (s s' : Sys),
    List.foldlM applyMutation s ms = some s' → TreeInv s → TreeInv s' := by
  intro ms
  induction ms with
  | nil =>
    intro s s' h hi
    cases h
    exact hi
  | cons m ms ih =>
    intro s s' h hi
    rw [List.foldlM_cons] at h
    cases hm : applyMutation s m with
    | none =>
      rw [hm] at h
      cases h
    | some s1 =>
      rw [hm] at h
      exact ih s1 s' h (inv_applyMutation s s1 m hm hi)

/-- Every state reachable by a history of processed mutations satisfies the
tree invariant. -/
theorem inv_run (ms : List Mutation) (sys : Sys) (h : runMutations ms = some sys) :
    TreeInv sys :=
  inv_foldlM ms initSys sys h inv_init

/-! ## Evaluating `http_request` on well-formed urls -/

/-- A url `/…` whose tail neither carries '?' nor starts with a
continuation byte resolves through `resolveRI` on its slash-split segments,
wrapped with the certification and security headers. -/
theorem httpRequest_ok (sys : Sys) (w : Bytes → Bytes) (c : Bytes) (rest : Bytes)
    (code : Nat) (body : Bytes) (ct : Option Bytes)
    (hq : stripQuery (47 :: rest) = 47 :: rest)
    (hs : sliceFrom1Ok (47 :: rest) = true)
    (hres : resolveRI sys ((splitSlash rest).headD [])
      (((splitSlash rest).get? 1).getD []) = Except.ok (code, body, ct)) :
    httpRequest sys w (some c) (47 :: rest) =
      Except.ok (mkResponse (certHeaderValue c (w (47 :: rest))) code body ct) := by
  unfold httpRequest
  simp only [hq, hs, if_true, List.drop_succ_cons, List.drop_zero, hres]

theorem exceptBind_ok {ε α β : Type} (a : α) (k : α → Except ε β) :
    (Except.ok a >>= k : Except ε β) = k a := rfl

/-- The resolver on the empty first segment: the collection summary. -/
theorem resolveRI_count (sys : Sys) (img : Bytes) :
    resolveRI sys [] img = Except.ok (200, countBody sys.nfts.length, none) := rfl

/-- The resolver on a first segment that does not parse: 400 naming it. -/
theorem resolveRI_invalid_root (sys : Sys) (root img : Bytes)
    (hp : PlainSeg root) (hne : root ≠ []) (hparse : parseUsize root = none) :
    resolveRI sys root img =
      Except.ok (400, asciiBytes "Invalid NFT ID " ++ root, none) := by
  unfold resolveRI
  rw [decodeSeg_plain root hp, exceptBind_ok]
  simp only [if_neg hne, hparse]
  rfl

/-- The resolver on an id with no item: 404 "No such NFT". -/
theorem resolveRI_no_item (sys : Sys) (root img : Bytes) (num : Nat)
    (hp : PlainSeg root) (hne : root ≠ []) (hparse : parseUsize root = some num)
    (hnft : sys.nfts.get? num = none) :
    resolveRI sys root img = Except.ok (404, asciiBytes "No such NFT", none) := by
  unfold resolveRI
  rw [decodeSeg_plain root hp, exceptBind_ok]
  simp only [if_neg hne, hparse, hnft]
  rfl

/-- The resolver on an existing id with no second segment: the default part,
or the placeholder when the item has no parts. -/
theorem resolveRI_default (sys : Sys) (root : Bytes) (num : Nat) (nft : NFT)
    (hp : PlainSeg root) (hne : root ≠ []) (hparse : parseUsize root = some num)
    (hnft : sys.nfts.get? num = some nft) :
    resolveRI sys root [] =
      Except.ok (match (nft.metadata.find? fun x =>
          x.purpose == MetadataPurpose.Rendered).orElse (fun _ => nft.metadata.get? 0) with
        | some part => (200, part.data, contentTypeOf part)
        | none => (200, asciiBytes "No metadata for this NFT", none)) := by
  unfold resolveRI
  rw [decodeSeg_plain root hp, exceptBind_ok]
  simp only [if_neg hne, hparse, hnft]
  rw [show decodeSeg [] = Except.ok [] from rfl, exceptBind_ok]
  simp only [if_pos rfl]
  cases (nft.metadata.find? fun x =>
      x.purpose == MetadataPurpose.Rendered).orElse (fun _ => nft.metadata.get? 0) <;> rfl

/-- The resolver on an existing id with a nonempty second segment. -/
theorem resolveRI_item_img (sys : Sys) (root img : Bytes) (num : Nat) (nft : NFT)
    (hp : PlainSeg root) (hne : root ≠ []) (hparse : parseUsize root = some num)
    (hnft : sys.nfts.get? num = some nft)
    (hp2 : PlainSeg img) (hne2 : img ≠ []) :
    resolveRI sys root img =
      Except.ok (match parseUsize img with
        | some i =>
          match nft.metadata.get? i with
          | some part => (200, part.data, contentTypeOf part)
          | none => (404, asciiBytes "No such metadata part", none)
        | none => (400, asciiBytes "Invalid metadata ID " ++ img, none)) := by
  unfold resolveRI
  rw [decodeSeg_plain root hp, exceptBind_ok]
  simp only [if_neg hne, hparse, hnft]
  rw [decodeSeg_plain img hp2, exceptBind_ok]
  simp only [if_neg hne2]
  cases parseUsize img with
  | some i =>
    show (match nft.metadata.get? i with
      | some part => (pure (200, part.data, contentTypeOf part) :
          Except Unit (Nat × Bytes × Option Bytes))
      | none => pure (404, asciiBytes "No such metadata part", none)) =
      Except.ok (match nft.metadata.get? i with
        | some part => (200, part.data, contentTypeOf part)
        | none => (404, asciiBytes "No such metadata part", none))
    cases nft.metadata.get? i <;> rfl
  | none => rfl

theorem sliceOk_of_lt128 (rest : Bytes) (h : ∀ b ∈ rest, b < 128) :
    sliceFrom1Ok (47 :: rest) = true := by
  cases rest with
  | nil => rfl
  | cons b t =>
    have hb := h b (List.mem_cons_self _ _)
    show (!(128 ≤ b && b < 192)) = true
    simp
    omega

theorem stripQuery_cons47 (rest : Bytes) (h : ∀ b ∈ rest, b ≠ 63) :
    stripQuery (47 :: rest) = 47 :: rest := by
  apply stripQuery_no_q
  intro b hb
  rcases List.mem_cons.mp hb with h1 | h1
  · omega
  · exact h b h1

/-- `GET /`: the collection summary. -/
theorem httpRequest_root (sys : Sys) (w : Bytes → Bytes) (c : Bytes) :
    httpRequest sys w (some c) [47] =
      Except.ok (mkResponse (certHeaderValue c (w [47])) 200
        (countBody sys.nfts.length) none) :=
  httpRequest_ok sys w c [] 200 (countBody sys.nfts.length) none rfl rfl
    (resolveRI_count sys [])

/-- `GET /{seg}` for a plain nonempty segment. -/
theorem httpRequest_one (sys : Sys) (w : Bytes → Bytes) (c : Bytes) (seg : Bytes)
    (code : Nat) (body : Bytes) (ct : Option Bytes)
    (hp : PlainSeg seg)
    (hres : resolveRI sys seg [] = Except.ok (code, body, ct)) :
    httpRequest sys w (some c) (47 :: seg) =
      Except.ok (mkResponse (certHeaderValue c (w (47 :: seg))) code body ct) := by
  apply httpRequest_ok
  · exact stripQuery_cons47 seg (fun b hb => (hp b hb).2.2.2)
  · exact sliceOk_of_lt128 seg (fun b hb => (hp b hb).1)
  · rw [splitSlash_no_slash seg (fun b hb => (hp b hb).2.2.1)]
    exact hres

/-- `GET /{seg1}/{seg2}` for plain segments. -/
theorem httpRequest_two (sys : Sys) (w : Bytes → Bytes) (c : Bytes) (seg1 seg2 : Bytes)
    (code : Nat) (body : Bytes) (ct : Option Bytes)
    (hp1 : PlainSeg seg1) (hp2 : PlainSeg seg2)
    (hres : resolveRI sys seg1 seg2 = Except.ok (code, body, ct)) :
    httpRequest sys w (some c) (47 :: (seg1 ++ 47 :: seg2)) =
      Except.ok (mkResponse (certHeaderValue c (w (47 :: (seg1 ++ 47 :: seg2)))) code body ct) := by
  apply httpRequest_ok
  · apply stripQuery_cons47
    intro b hb
    rcases List.mem_append.mp hb with h1 | h1
    · exact (hp1 b h1).2.2.2
    · rcases List.mem_cons.mp h1 with h2 | h2
      · omega
      · exact (hp2 b h2).2.2.2
  · apply sliceOk_of_lt128
    intro b hb
    rcases List.mem_append.mp hb with h1 | h1
    · exact (hp1 b h1).1
    · rcases List.mem_cons.mp h1 with h2 | h2
      · omega
      · exact (hp2 b h2).1
  · rw [splitSlash_append seg1 seg2 (fun b hb => (hp1 b hb).2.2.1),
      splitSlash_no_slash seg2 (fun b hb => (hp2 b hb).2.2.1)]
    exact hres

/-- `GET /{seg1}/{seg2}/{anything}`: segments beyond the second are never
consumed; the resolver outcome is that of the first two segments. -/
theorem httpRequest_two_extra (sys : Sys) (w : Bytes → Bytes) (c : Bytes)
    (seg1 seg2 extra : Bytes) (code : Nat) (body : Bytes) (ct : Option Bytes)
    (hp1 : PlainSeg seg1) (hp2 : PlainSeg seg2)
    (hres : resolveRI sys seg1 seg2 = Except.ok (code, body, ct)) :
    httpRequest sys w (some c) (47 :: (seg1 ++ 47 :: (seg2 ++ 47 :: extra))) =
      Except.ok (mkResponse
        (certHeaderValue c (w (47 :: (seg1 ++ 47 :: (seg2 ++ 47 :: stripQuery extra)))))
        code body ct) := by
  unfold httpRequest
  have hstrip : stripQuery (47 :: (seg1 ++ 47 :: (seg2 ++ 47 :: extra))) =
      47 :: (seg1 ++ 47 :: (seg2 ++ 47 :: stripQuery extra)) := by
    have h1 : ∀ b ∈ 47 :: (seg1 ++ 47 :: seg2) ++ [47], b ≠ 63 := by
      intro b hb
      rcases List.mem_append.mp hb with h1 | h1
      · rcases List.mem_cons.mp h1 with h2 | h2
        · omega
        · rcases List.mem_append.mp h2 with h3 | h3
          · exact (hp1 b h3).2.2.2
          · rcases List.mem_cons.mp h3 with h4 | h4
            · omega
            · exact (hp2 b h4).2.2.2
      · rcases List.mem_cons.mp h1 with h2 | h2
        · omega
        · cases h2
    have := stripQuery_append ((47 :: (seg1 ++ 47 :: seg2)) ++ [47]) extra h1
    simpa using this
  have hslice : sliceFrom1Ok (47 :: (seg1 ++ 47 :: (seg2 ++ 47 :: stripQuery extra))) = true := by
    cases hc : seg1 with
    | nil => rfl
    | cons b t =>
      have hb := (hp1 b (by rw [hc]; exact List.mem_cons_self _ _)).1
      show (!(128 ≤ b && b < 192)) = true
      simp
      omega
  rw [hstrip]
  simp only [hslice, if_true, List.drop_succ_cons, List.drop_zero]
  rw [splitSlash_append seg1 _ (fun b hb => (hp1 b hb).2.2.1),
    splitSlash_append seg2 _ (fun b hb => (hp2 b hb).2.2.1)]
  simp only [List.headD_cons, List.get?_cons_succ, List.get?_cons_zero, Option.getD_some]
  rw [hres]

/-! ## Claim-level helpers -/

/-- A trivial witness serializer (the claims hold for every serializer). -/
def wZero : Bytes → Bytes := fun _ => []

theorem plain_natToDec (n : Nat) : PlainSeg (natToDec n) := by
  intro b hb
  have := natToDec_digits n b hb
  omega

theorem lookupHdr_contentType (certV : Bytes) (code : Nat) (body : Bytes) (ct : Option Bytes) :
    lookupHdr (mkResponse certV code body ct).headers "Content-Type" = ct := by
  cases ct <;> rfl

theorem lookupHdr_csp (certV : Bytes) (code : Nat) (body : Bytes) (ct : Option Bytes) :
    lookupHdr (mkResponse certV code body ct).headers "Content-Security-Policy" =
      some cspValue := by
  cases ct <;> rfl

theorem get?_some_lt {α : Type} {l : List α} {n : Nat} {a : α} (h : l.get? n = some a) :
    n < l.length := by
  by_contra hc
  rw [List.get?_eq_none.mpr (by omega)] at h
  cases h

/-- On plain segments the resolver never traps. -/
theorem resolveRI_plain_ok (sys : Sys) (seg1 seg2 : Bytes)
    (hp1 : PlainSeg seg1) (hp2 : PlainSeg seg2) :
    ∃ out, resolveRI sys seg1 seg2 = Except.ok out := by
  by_cases hne1 : seg1 = []
  · subst hne1
    exact ⟨_, resolveRI_count sys seg2⟩
  · cases hparse : parseUsize seg1 with
    | none => exact ⟨_, resolveRI_invalid_root sys seg1 seg2 hp1 hne1 hparse⟩
    | some num =>
      cases hnft : sys.nfts.get? num with
      | none => exact ⟨_, resolveRI_no_item sys seg1 seg2 num hp1 hne1 hparse hnft⟩
      | some nft =>
        by_cases hne2 : seg2 = []
        · subst hne2
          exact ⟨_, resolveRI_default sys seg1 num nft hp1 hne1 hparse hnft⟩
        · exact ⟨_, resolveRI_item_img sys seg1 seg2 num nft hp1 hne1 hparse hnft hp2 hne2⟩

/-! ## C8 -/

/-- C8: for every state in which the registry holds `n` items, resolving "/"
returns status 200 with body exactly the ASCII text `Total NFTs: <n>` and no
content-type override. -/
theorem root_serves_item_count (sys : Sys) (w : Bytes → Bytes) (c : Bytes) :
    ∃ r, httpRequest sys w (some c) (asciiBytes "/") = Except.ok r ∧
      r.statusCode = 200 ∧
      r.body = asciiBytes "Total NFTs: " ++ natToDec sys.nfts.length ∧
      lookupHdr r.headers "Content-Type" = none := by
  rw [show asciiBytes "/" = [47] by decide]
  exact ⟨_, httpRequest_root sys w c, rfl, rfl,
    lookupHdr_contentType _ _ _ none⟩

/-! ## C7 -/

/-- The security-policy header value the spec claims, byte for byte. -/
def claimedCSP : Bytes :=
  asciiBytes "default-src 'self'; script-src 'none'; frame-src 'none'; object-src 'none'"

/-- C7 counterexample: the response to "/" carries a Content-Security-Policy
value, but it is the source's string with a blank before every ';', not the
claimed byte string. -/
theorem csp_value_differs_from_claim :
    ∃ r, httpRequest initSys wZero (some []) (asciiBytes "/") = Except.ok r ∧
      lookupHdr r.headers "Content-Security-Policy" = some cspValue ∧
      cspValue ≠ claimedCSP := by
  refine ⟨mkResponse (certHeaderValue [] (wZero [47])) 200 (countBody 0) none, ?_, ?_, ?_⟩
  · rw [show asciiBytes "/" = [47] by decide]
    exact httpRequest_root initSys wZero []
  · exact lookupHdr_csp _ _ _ none
  · decide

/-- C7 amended: every response `http_request` produces, for success and
error statuses alike, carries a Content-Security-Policy header whose value is
exactly the byte string
`default-src 'self' ; script-src 'none' ; frame-src 'none' ; object-src 'none'`
(a blank on each side of every ';'). -/
theorem every_response_carries_csp (sys : Sys) (w : Bytes → Bytes) (cert : Option Bytes)
    (url : Bytes) (r : HttpResponse)
    (h : httpRequest sys w cert url = Except.ok r) :
    lookupHdr r.headers "Content-Security-Policy" = some cspValue := by
  unfold httpRequest at h
  cases cert with
  | none => cases h
  | some c =>
    by_cases hs : sliceFrom1Ok (stripQuery url) = true
    · simp only [if_pos hs] at h
      cases hres : resolveRI sys ((splitSlash ((stripQuery url).drop 1)).headD [])
          (((splitSlash ((stripQuery url).drop 1)).get? 1).getD []) with
      | error e => rw [hres] at h; cases h
      | ok out =>
        rw [hres] at h
        obtain ⟨code, body, ct⟩ := out
        cases h
        exact lookupHdr_csp _ _ _ _
    · simp only [if_neg hs] at h
      cases h

theorem every_response_carries_csp_witness :
    lookupHdr ((httpRequest initSys wZero (some []) (asciiBytes "/")).toOption.getD
      (HttpResponse.mk 0 [] [])).headers "Content-Security-Policy" = some cspValue :=
  every_response_carries_csp initSys wZero (some []) (asciiBytes "/") _ (by decide)

/-! ## C6 -/

/-- C6 counterexample: with no certificate available, the code does not serve
a response with the certification header omitted — it traps on the `unwrap`
and produces nothing at all. -/
theorem no_certificate_traps_concrete :
    httpRequest initSys wZero none (asciiBytes "/") = Except.error () := by decide

/-- C6 amended: whenever the environment's certificate call returns none,
`http_request` panics on the `unwrap` of line 48 before building any
response; it never fabricates a certificate and never serves the bytes. -/
theorem no_certificate_always_traps (sys : Sys) (w : Bytes → Bytes) (url : Bytes) :
    httpRequest sys w none url = Except.error () := rfl

/-! ## C10 -/

/-- C10: `http_request` is not total: it panics (returns no response) on the
empty url, on a url whose second byte is not a UTF-8 char boundary, and on a
percent-encoded segment that decodes to invalid UTF-8. -/
theorem http_request_panics (sys : Sys) (w : Bytes → Bytes) (c : Bytes) :
    httpRequest sys w (some c) (asciiBytes "") = Except.error () ∧
    httpRequest sys w (some c) [195, 169] = Except.error () ∧
    httpRequest sys w (some c) (asciiBytes "/%FF") = Except.error () :=
  ⟨rfl, rfl, rfl⟩

/-! ## C2 -/

/-- C2 (code bug): `mint` returns success yet neither the `HASHES` tree nor
the published commitment changes — lib.rs lines 244-255 never call
`add_hash`/`set_certified_data`. -/
theorem mint_succeeds_without_republish (sys : MarketSys) (owner : Principal)
    (m : FlatMetadata) :
    (mintSys sys owner m).1 = Except.ok sys.state.next_token_id ∧
    (mintSys sys owner m).2.hashes = sys.hashes ∧
    (mintSys sys owner m).2.certified = sys.certified :=
  ⟨rfl, rfl, rfl⟩

/-! ## C3 -/

/-- C3: for every existing item id, resolving `/{id}` serves, with status
200: the bytes of the first metadata part whose purpose is Rendered; else the
bytes of the part at index 0; and for an item with zero parts, the fixed
"no metadata" placeholder. -/
theorem item_default_part (sys : Sys) (w : Bytes → Bytes) (c : Bytes)
    (id : Nat) (nft : NFT) (hid : id < M32) (hget : sys.nfts.get? id = some nft) :
    ∃ r, httpRequest sys w (some c) (47 :: natToDec id) = Except.ok r ∧
      r.statusCode = 200 ∧
      (∀ p, nft.metadata.find? (fun x => x.purpose == MetadataPurpose.Rendered) = some p →
        r.body = p.data) ∧
      (nft.metadata.find? (fun x => x.purpose == MetadataPurpose.Rendered) = none →
        ∀ q, nft.metadata.get? 0 = some q → r.body = q.data) ∧
      (nft.metadata = [] → r.body = asciiBytes "No metadata for this NFT") := by
  have hres := resolveRI_default sys (natToDec id) id nft (plain_natToDec id)
    (natToDec_ne_nil id) (parseUsize_natToDec id hid) hget
  cases hD : (nft.metadata.find? fun x =>
      x.purpose == MetadataPurpose.Rendered).orElse (fun _ => nft.metadata.get? 0) with
  | some part =>
    rw [hD] at hres
    refine ⟨_, httpRequest_one sys w c (natToDec id) 200 part.data (contentTypeOf part)
      (plain_natToDec id) hres, rfl, ?_, ?_, ?_⟩
    · intro p hp
      rw [hp] at hD
      cases hD
      rfl
    · intro hf q hq
      rw [hf] at hD
      have hD2 : nft.metadata.get? 0 = some part := hD
      rw [hq] at hD2
      cases hD2
      rfl
    · intro hmd
      rw [hmd] at hD
      simp at hD
  | none =>
    rw [hD] at hres
    refine ⟨_, httpRequest_one sys w c (natToDec id) 200
      (asciiBytes "No metadata for this NFT") none (plain_natToDec id) hres, rfl, ?_, ?_, ?_⟩
    · intro p hp
      rw [hp] at hD
      cases hD
    · intro hf q hq
      rw [hf] at hD
      have hD2 : nft.metadata.get? 0 = none := hD
      rw [hq] at hD2
      cases hD2
    · intro _
      rfl

/-- A concrete three-part registry exercising the default tie-break. -/
def partPrev : MetadataPart :=
  { purpose := MetadataPurpose.Preview, key_val_data := [], data := [1] }

def partRend : MetadataPart :=
  { purpose := MetadataPurpose.Rendered,
    key_val_data := [("contentType", MetadataVal.TextContent (asciiBytes "image/png"))],
    data := [2, 3] }

def sysDemo : Sys :=
  { nfts := [⟨[partPrev, partRend]⟩], hashes := [(keyRoot, initRootHash)], certified := none }

theorem item_default_part_witness :
    ∃ r, httpRequest sysDemo wZero (some []) (47 :: natToDec 0) = Except.ok r ∧
      r.statusCode = 200 ∧
      (∀ p, (⟨[partPrev, partRend]⟩ : NFT).metadata.find?
          (fun x => x.purpose == MetadataPurpose.Rendered) = some p → r.body = p.data) ∧
      ((⟨[partPrev, partRend]⟩ : NFT).metadata.find?
          (fun x => x.purpose == MetadataPurpose.Rendered) = none →
        ∀ q, (⟨[partPrev, partRend]⟩ : NFT).metadata.get? 0 = some q → r.body = q.data) ∧
      ((⟨[partPrev, partRend]⟩ : NFT).metadata = [] →
        r.body = asciiBytes "No metadata for this NFT") :=
  item_default_part sysDemo wZero [] 0 ⟨[partPrev, partRend]⟩ (by decide) (by decide)

/-! ## C5 -/

/-- C5: the resolver's error paths.  For a request path `/{seg1}` or
`/{seg1}/{seg2}` built from plain nonempty segments: a first segment that
does not parse as a non-negative integer yields 400 with a message naming
it (whether or not a second segment follows); a parsed id with no item
yields 404 "No such NFT" (likewise); an existing id whose second segment
does not parse yields 400 naming it; and a parsed index with no such part
yields 404 "No such metadata part". -/
theorem resolver_error_paths (sys : Sys) (w : Bytes → Bytes) (c : Bytes)
    (seg1 seg2 : Bytes) (hp1 : PlainSeg seg1) (hne1 : seg1 ≠ [])
    (hp2 : PlainSeg seg2) (hne2 : seg2 ≠ []) :
    (parseUsize seg1 = none →
      (∃ r, httpRequest sys w (some c) (47 :: seg1) = Except.ok r ∧
        r.statusCode = 400 ∧ r.body = asciiBytes "Invalid NFT ID " ++ seg1) ∧
      (∃ r, httpRequest sys w (some c) (47 :: (seg1 ++ 47 :: seg2)) = Except.ok r ∧
        r.statusCode = 400 ∧ r.body = asciiBytes "Invalid NFT ID " ++ seg1)) ∧
    (∀ id, parseUsize seg1 = some id → sys.nfts.get? id = none →
      (∃ r, httpRequest sys w (some c) (47 :: seg1) = Except.ok r ∧
        r.statusCode = 404 ∧ r.body = asciiBytes "No such NFT") ∧
      (∃ r, httpRequest sys w (some c) (47 :: (seg1 ++ 47 :: seg2)) = Except.ok r ∧
        r.statusCode = 404 ∧ r.body = asciiBytes "No such NFT")) ∧
    (∀ id nft, parseUsize seg1 = some id → sys.nfts.get? id = some nft →
      parseUsize seg2 = none →
      ∃ r, httpRequest sys w (some c) (47 :: (seg1 ++ 47 :: seg2)) = Except.ok r ∧
        r.statusCode = 400 ∧ r.body = asciiBytes "Invalid metadata ID " ++ seg2) ∧
    (∀ id nft i, parseUsize seg1 = some id → sys.nfts.get? id = some nft →
      parseUsize seg2 = some i → nft.metadata.get? i = none →
      ∃ r, httpRequest sys w (some c) (47 :: (seg1 ++ 47 :: seg2)) = Except.ok r ∧
        r.statusCode = 404 ∧ r.body = asciiBytes "No such metadata part") := by
  refine ⟨?_, ?_, ?_, ?_⟩
  · intro hparse
    constructor
    · exact ⟨_, httpRequest_one sys w c seg1 _ _ _ hp1
        (resolveRI_invalid_root sys seg1 [] hp1 hne1 hparse), rfl, rfl⟩
    · exact ⟨_, httpRequest_two sys w c seg1 seg2 _ _ _ hp1 hp2
        (resolveRI_invalid_root sys seg1 seg2 hp1 hne1 hparse), rfl, rfl⟩
  · intro id hparse hnone
    constructor
    · exact ⟨_, httpRequest_one sys w c seg1 _ _ _ hp1
        (resolveRI_no_item sys seg1 [] id hp1 hne1 hparse hnone), rfl, rfl⟩
    · exact ⟨_, httpRequest_two sys w c seg1 seg2 _ _ _ hp1 hp2
        (resolveRI_no_item sys seg1 seg2 id hp1 hne1 hparse hnone), rfl, rfl⟩
  · intro id nft hparse hget hparse2
    have hres := resolveRI_item_img sys seg1 seg2 id nft hp1 hne1 hparse hget hp2 hne2
    rw [hparse2] at hres
    exact ⟨_, httpRequest_two sys w c seg1 seg2 _ _ _ hp1 hp2 hres, rfl, rfl⟩
  · intro id nft i hparse hget hparse2 hpart
    have hres := resolveRI_item_img sys seg1 seg2 id nft hp1 hne1 hparse hget hp2 hne2
    simp only [hparse2, hpart] at hres
    exact ⟨_, httpRequest_two sys w c seg1 seg2 _ _ _ hp1 hp2 hres, rfl, rfl⟩

theorem resolver_error_paths_witness :
    ((parseUsize (asciiBytes "abc") = none →
      (∃ r, httpRequest sysDemo wZero (some []) (47 :: asciiBytes "abc") = Except.ok r ∧
        r.statusCode = 400 ∧ r.body = asciiBytes "Invalid NFT ID " ++ asciiBytes "abc") ∧
      (∃ r, httpRequest sysDemo wZero (some [])
          (47 :: (asciiBytes "abc" ++ 47 :: asciiBytes "9")) = Except.ok r ∧
        r.statusCode = 400 ∧ r.body = asciiBytes "Invalid NFT ID " ++ asciiBytes "abc")) ∧
    (∀ id, parseUsize (asciiBytes "abc") = some id → sysDemo.nfts.get? id = none →
      (∃ r, httpRequest sysDemo wZero (some []) (47 :: asciiBytes "abc") = Except.ok r ∧
        r.statusCode = 404 ∧ r.body = asciiBytes "No such NFT") ∧
      (∃ r, httpRequest sysDemo wZero (some [])
          (47 :: (asciiBytes "abc" ++ 47 :: asciiBytes "9")) = Except.ok r ∧
        r.statusCode = 404 ∧ r.body = asciiBytes "No such NFT")) ∧
    (∀ id nft, parseUsize (asciiBytes "abc") = some id → sysDemo.nfts.get? id = some nft →
      parseUsize (asciiBytes "9") = none →
      ∃ r, httpRequest sysDemo wZero (some [])
          (47 :: (asciiBytes "abc" ++ 47 :: asciiBytes "9")) = Except.ok r ∧
        r.statusCode = 400 ∧ r.body = asciiBytes "Invalid metadata ID " ++ asciiBytes "9") ∧
    (∀ id nft i, parseUsize (asciiBytes "abc") = some id →
      sysDemo.nfts.get? id = some nft → parseUsize (asciiBytes "9") = some i →
      nft.metadata.get? i = none →
      ∃ r, httpRequest sysDemo wZero (some [])
          (47 :: (asciiBytes "abc" ++ 47 :: asciiBytes "9")) = Except.ok r ∧
        r.statusCode = 404 ∧ r.body = asciiBytes "No such metadata part")) :=
  resolver_error_paths sysDemo wZero [] (asciiBytes "abc") (asciiBytes "9")
    (by decide) (by decide) (by decide) (by decide)

/-! ## C9 -/

/-- C9 counterexample: `/0/1/extra` does not resolve to the root-level
behavior — it serves metadata part 1 of item 0 (the behavior of the prefix
`/0/1`), status 200, bytes `[2, 3]`, which differ from the root body. -/
theorem extra_segment_cex :
    ∃ r, httpRequest sysDemo wZero (some []) (asciiBytes "/0/1/extra") = Except.ok r ∧
      r.statusCode = 200 ∧ r.body = [2, 3] ∧
      r.body ≠ countBody sysDemo.nfts.length :=
  ⟨mkResponse (certHeaderValue [] []) 200 [2, 3] (some (asciiBytes "image/png")),
    by decide, by decide, by decide, by decide⟩

/-- C9 amended: segments beyond the second are ignored: for plain segments,
`/{seg1}/{seg2}/{anything}` resolves with the same status, body and
content-type as `/{seg1}/{seg2}` (not with the root-level behavior). -/
theorem extra_segments_ignored (sys : Sys) (w : Bytes → Bytes) (c : Bytes)
    (seg1 seg2 extra : Bytes) (hp1 : PlainSeg seg1) (hp2 : PlainSeg seg2) :
    ∃ r1 r2, httpRequest sys w (some c) (47 :: (seg1 ++ 47 :: seg2)) = Except.ok r1 ∧
      httpRequest sys w (some c) (47 :: (seg1 ++ 47 :: (seg2 ++ 47 :: extra))) =
        Except.ok r2 ∧
      r2.statusCode = r1.statusCode ∧ r2.body = r1.body ∧
      lookupHdr r2.headers "Content-Type" = lookupHdr r1.headers "Content-Type" := by
  obtain ⟨⟨code, body, ct⟩, hres⟩ := resolveRI_plain_ok sys seg1 seg2 hp1 hp2
  refine ⟨_, _, httpRequest_two sys w c seg1 seg2 code body ct hp1 hp2 hres,
    httpRequest_two_extra sys w c seg1 seg2 extra code body ct hp1 hp2 hres,
    rfl, rfl, ?_⟩
  rw [lookupHdr_contentType, lookupHdr_contentType]

theorem extra_segments_ignored_witness :
    ∃ r1 r2, httpRequest sysDemo wZero (some [])
        (47 :: (asciiBytes "0" ++ 47 :: asciiBytes "1")) = Except.ok r1 ∧
      httpRequest sysDemo wZero (some [])
        (47 :: (asciiBytes "0" ++ 47 :: (asciiBytes "1" ++ 47 :: asciiBytes "extra"))) =
        Except.ok r2 ∧
      r2.statusCode = r1.statusCode ∧ r2.body = r1.body ∧
      lookupHdr r2.headers "Content-Type" = lookupHdr r1.headers "Content-Type" :=
  extra_segments_ignored sysDemo wZero [] (asciiBytes "0") (asciiBytes "1")
    (asciiBytes "extra") (by decide) (by decide)

/-! ## C4 -/

/-- An item holding one non-Rendered part with payload `[7]`. -/
def partPrev7 : MetadataPart :=
  { purpose := MetadataPurpose.Preview, key_val_data := [], data := [7] }

def sysC4 : Sys :=
  { nfts := [⟨[partPrev7]⟩], hashes := [(keyRoot, initRootHash)], certified := none }

/-- C4 counterexample: processing an item that has a part but no Rendered
part writes the part entry yet leaves the `/{id}` alias without any entry —
it is not updated to the default (first-by-index) part's hash. -/
theorem alias_missing_without_rendered :
    ∃ sys', addHash sysC4 0 = some sys' ∧
      lookupT sys'.hashes (keyPart 0 0) = some (sha256 [7]) ∧
      lookupT sys'.hashes (keyItem 0) = none :=
  ⟨(addHash sysC4 0).getD sysC4, by decide, by decide, by decide⟩

/-- C4 amended: `add_hash` updates the `/{id}` alias only when the item has
a `Rendered` part — to the first such part's hash; for an item without a
Rendered part the alias entry is left untouched. -/
theorem alias_updated_only_for_rendered (sys : Sys) (tkid : Nat) (nft : NFT)
    (hget : sys.nfts.get? tkid = some nft) :
    ∃ sys', addHash sys tkid = some sys' ∧
      ((∃ p, nft.metadata.find? (fun x => x.purpose == MetadataPurpose.Rendered) = some p ∧
          lookupT sys'.hashes (keyItem tkid) = some (sha256 p.data)) ∨
       (nft.metadata.find? (fun x => x.purpose == MetadataPurpose.Rendered) = none ∧
        lookupT sys'.hashes (keyItem tkid) = lookupT sys.hashes (keyItem tkid))) := by
  have hsome : ∃ sys', addHash sys tkid = some sys' := by
    unfold addHash
    rw [hget]
    exact ⟨_, rfl⟩
  obtain ⟨sys', heq⟩ := hsome
  obtain ⟨_, _, _, hi, _, _, _⟩ := addHash_lookup sys tkid nft sys' hget heq
  refine ⟨sys', heq, ?_⟩
  cases hf : nft.metadata.find? (fun x => x.purpose == MetadataPurpose.Rendered) with
  | some p =>
    left
    refine ⟨p, rfl, ?_⟩
    rw [hi, hf]
  | none =>
    right
    refine ⟨rfl, ?_⟩
    rw [hi, hf]

theorem alias_updated_only_for_rendered_witness :
    ∃ sys', addHash sysDemo 0 = some sys' ∧
      ((∃ p, (⟨[partPrev, partRend]⟩ : NFT).metadata.find?
          (fun x => x.purpose == MetadataPurpose.Rendered) = some p ∧
          lookupT sys'.hashes (keyItem 0) = some (sha256 p.data)) ∨
       ((⟨[partPrev, partRend]⟩ : NFT).metadata.find?
          (fun x => x.purpose == MetadataPurpose.Rendered) = none ∧
        lookupT sys'.hashes (keyItem 0) = lookupT sysDemo.hashes (keyItem 0))) :=
  alias_updated_only_for_rendered sysDemo 0 ⟨[partPrev, partRend]⟩ (by decide)

/-! ## C1 -/

/-- A mutation history creating one item with a single non-Rendered part. -/
def msC1 : List Mutation :=
  [Mutation.create [{ purpose := MetadataPurpose.Preview, key_val_data := [], data := [5] }]]

def sysC1 : Sys := (runMutations msC1).getD initSys

/-- C1 counterexample: after a mutation processed through `add_hash`, the
designed-hierarchy path `/0` has no entry in the tree, yet `http_request`
serves content there (200 with the part's bytes) — so "no entry only when
the resolver serves no content" fails. -/
theorem entry_absent_but_content_served :
    runMutations msC1 = some sysC1 ∧
    lookupT sysC1.hashes (keyItem 0) = none ∧
    ∃ r, httpRequest sysC1 wZero (some []) (keyItem 0) = Except.ok r ∧
      r.statusCode = 200 ∧ r.body = [5] :=
  ⟨by decide, by decide,
    ⟨mkResponse (certHeaderValue [] []) 200 [5] none, by decide, by decide, by decide⟩⟩

/-- C1 amended: after any mutation history processed through `add_hash`
(within the physical 32-bit bounds on item and part counts), every entry
present in the HASHES tree at a designed-hierarchy path is exactly the
SHA-256 of the body `http_request` returns for that path; "/" is always
bound; a `/{id}` entry is absent exactly when item `id` is missing or has no
Rendered part (although content is still served there), and a
`/{id}/{partIndex}` entry is absent exactly when that part does not exist. -/
theorem tree_matches_served_content (ms : List Mutation) (sys : Sys)
    (hrun : runMutations ms = some sys)
    (hN : sys.nfts.length ≤ M32)
    (hM : ∀ nft ∈ sys.nfts, nft.metadata.length ≤ M32)
    (w : Bytes → Bytes) (c : Bytes) :
    (∃ r, httpRequest sys w (some c) keyRoot = Except.ok r ∧
      lookupT sys.hashes keyRoot = some (sha256 r.body)) ∧
    (∀ id v, lookupT sys.hashes (keyItem id) = some v →
      ∃ r, httpRequest sys w (some c) (keyItem id) = Except.ok r ∧ sha256 r.body = v) ∧
    (∀ id, lookupT sys.hashes (keyItem id) = none ↔
      renderedVal (sys.nfts.get? id) = none) ∧
    (∀ id i v, lookupT sys.hashes (keyPart id i) = some v →
      ∃ r, httpRequest sys w (some c) (keyPart id i) = Except.ok r ∧ sha256 r.body = v) ∧
    (∀ id i, lookupT sys.hashes (keyPart id i) = none ↔
      partVal (sys.nfts.get? id) i = none) := by
  obtain ⟨hroot, hitem, hpart⟩ := inv_run ms sys hrun
  refine ⟨?_, ?_, ?_, ?_, ?_⟩
  · refine ⟨_, httpRequest_root sys w c, ?_⟩
    rw [hroot]
    rfl
  · intro id v hv
    rw [hitem id] at hv
    cases hg : sys.nfts.get? id with
    | none =>
      rw [hg] at hv
      cases hv
    | some nft =>
      rw [hg] at hv
      cases hf : nft.metadata.find? (fun x => x.purpose == MetadataPurpose.Rendered) with
      | none => simp [renderedVal, hf] at hv
      | some p =>
        have hvp : sha256 p.data = v := by
          simp only [renderedVal, Option.some_bind, hf, Option.map_some'] at hv
          exact Option.some.inj hv
        have hid : id < M32 := lt_of_lt_of_le (get?_some_lt hg) hN
        have hres := resolveRI_default sys (natToDec id) id nft (plain_natToDec id)
          (natToDec_ne_nil id) (parseUsize_natToDec id hid) hg
        rw [hf] at hres
        have hres2 : resolveRI sys (natToDec id) [] =
            Except.ok (200, p.data, contentTypeOf p) := hres
        exact ⟨_, httpRequest_one sys w c (natToDec id) 200 p.data (contentTypeOf p)
          (plain_natToDec id) hres2, hvp⟩
  · intro id
    rw [hitem id]
  · intro id i v hv
    rw [hpart id i] at hv
    cases hg : sys.nfts.get? id with
    | none =>
      rw [hg] at hv
      cases hv
    | some nft =>
      rw [hg] at hv
      cases hgi : nft.metadata.get? i with
      | none =>
        have h2 : (nft.metadata.get? i).map (fun p => sha256 p.data) = some v := hv
        rw [hgi] at h2
        simp at h2
      | some part =>
        have hvp : sha256 part.data = v := by
          simp only [partVal, Option.some_bind, hgi, Option.map_some'] at hv
          exact Option.some.inj hv
        have hid : id < M32 := lt_of_lt_of_le (get?_some_lt hg) hN
        have hii : i < M32 :=
          lt_of_lt_of_le (get?_some_lt hgi) (hM nft (List.get?_mem hg))
        have hres := resolveRI_item_img sys (natToDec id) (natToDec i) id nft
          (plain_natToDec id) (natToDec_ne_nil id) (parseUsize_natToDec id hid) hg
          (plain_natToDec i) (natToDec_ne_nil i)
        simp only [parseUsize_natToDec i hii, hgi] at hres
        exact ⟨_, httpRequest_two sys w c (natToDec id) (natToDec i) 200 part.data
          (contentTypeOf part) (plain_natToDec id) (plain_natToDec i) hres, hvp⟩
  · intro id i
    rw [hpart id i]

/-- A history creating one Rendered-part item, for the amended C1 theorem. -/
def msC1w : List Mutation := [Mutation.create [partRend]]

def sysC1w : Sys := (runMutations msC1w).getD initSys

theorem tree_matches_served_content_witness :
    (∃ r, httpRequest sysC1w wZero (some []) keyRoot = Except.ok r ∧
      lookupT sysC1w.hashes keyRoot = some (sha256 r.body)) ∧
    (∀ id v, lookupT sysC1w.hashes (keyItem id) = some v →
      ∃ r, httpRequest sysC1w wZero (some []) (keyItem id) = Except.ok r ∧
        sha256 r.body = v) ∧
    (∀ id, lookupT sysC1w.hashes (keyItem id) = none ↔
      renderedVal (sysC1w.nfts.get? id) = none) ∧
    (∀ id i v, lookupT sysC1w.hashes (keyPart id i) = some v →
      ∃ r, httpRequest sysC1w wZero (some []) (keyPart id i) = Except.ok r ∧
        sha256 r.body = v) ∧
    (∀ id i, lookupT sysC1w.hashes (keyPart id i) = none ↔
      partVal (sysC1w.nfts.get? id) i = none) :=
  tree_matches_served_content msC1w sysC1w (by decide) (by decide) (by decide) wZero []
